import Mathlib

/-!
# Verification of the concealSATgen clause generator

Shallow embedding of the core of the concealSATgen repository
(`sample_clauses.py`, `hash_clauses.py`, `cnfformula.py`, `generator.py`),
together with proofs about its guarantees.

Python's global pseudo-random stream is modelled by oracle parameters:

* `draws : ℕ → Clause × ℚ` gives, for each iteration of the sampling loop,
  the candidate clause produced by `random.sample` / `random.choice` and the
  uniform value produced by `random.random` in `unfair_coin_flip`.
  The predicate `DrawsShaped k n draws` records exactly what
  `random.sample(range(1,n+1), k)` together with per-variable polarity
  choice guarantees about a candidate; `DrawsFair draws` records that
  `random.random()` lies in `[0,1)`.
* `streamOf : ℤ → ℕ → Clause × ℚ` maps a seed to the stream obtained by
  `random.seed(seed)`; attempt `t` of the orchestrator in `generator.main`
  uses `streamOf (s + t)`.

The unbounded Python `while` loops are given explicit fuel; running out of
fuel returns `none`, which models "the loop is still running".
-/

/-- A literal `(polarity, variable)` as in the Python tuples `(Boolean, int)`. -/
abbrev Lit := Bool × ℤ

/-- A clause: the tuple of literals produced in `sample_clauses`. -/
abbrev Clause := List Lit

/-- A (partial) assignment, modelling the Python dict `variable -> bool`
(`hidden` in `generator.main`); `none` models a missing key. -/
abbrev Assignment := ℤ → Option Bool

/-- Whether one literal is satisfied: `var in assignment and polarity == assignment[var]`
from `number_of_satisfied_literals` in `sample_clauses.py`. -/
def satLit (assignment : Assignment) (l : Lit) : Bool :=
  match assignment l.2 with
  | some b => l.1 == b
  | none => false

/-- `number_of_satisfied_literals` from `sample_clauses.py`: the sum of the
Boolean list `satisfied_lits`, i.e. the number of literals of the clause the
assignment satisfies. -/
def number_of_satisfied_literals (clause : Clause) (assignment : Assignment) : ℕ :=
  clause.countP (satLit assignment)

/-- `unfair_coin_flip(p)` from `sample_clauses.py`: `random.random() < p`,
with the value `u` of `random.random()` made explicit. -/
def unfair_coin_flip (p : ℚ) (u : ℚ) : Bool :=
  decide (u < p)

/-- The fingerprint table `variable_mapping` of `hash_clauses.py`, as the
total function it is after `init_variable_mapping(n)` has populated it for
every literal over variables `1..n` (the generator initializes it before any
sampling happens). -/
abbrev VarMapping := Lit → ℕ

/-- `hash_clause` from `hash_clauses.py`: the sum of the mapped literal values. -/
def hash_clause (vm : VarMapping) (clause : Clause) : ℕ :=
  (clause.map vm).sum

/-- `init_variable_mapping(n, seed=42)` from `hash_clauses.py`.  The Python
function creates a fresh `rng = random.Random()` and seeds it with `seed`, but
then draws `sample = random.sample(range(2**32-1), 2*n)` from the *module
global* stream: `rng` is never used, so `seed` has no influence on the result.
`sample` (the list drawn from the global stream) is a parameter here; the
result maps `(True, l)` to `sample[2*(l-1)]` and `(False, l)` to
`sample[2*(l-1)+1]` for `l = 1, ..., n`, and is undefined elsewhere. -/
def init_variable_mapping (sample : List ℕ) (n : ℕ) (seed : ℕ) : Lit → Option ℕ :=
  fun l =>
    if 1 ≤ l.2 ∧ l.2 ≤ (n : ℤ) then
      if l.1 then sample.get? (2 * (l.2.toNat - 1))
      else sample.get? (2 * (l.2.toNat - 1) + 1)
    else none

/-- The property `random.sample(range(2**32-1), 2*n)` guarantees of the list
it returns: `2*n` pairwise distinct values below `2^32 - 1`. -/
def ValidGlobalSample (sample : List ℕ) (n : ℕ) : Prop :=
  sample.length = 2 * n ∧ sample.Nodup ∧ ∀ x ∈ sample, x < 2 ^ 32 - 1

/-- The accumulator state of the `while` loop in `sample_clauses`
(`sample_clauses.py`).  The local `highestvariablecreated` of the source is
updated in the loop but never returned or read, and is omitted. -/
structure SampleState where
  clauses : List Clause
  variableset : Finset ℤ
  clause_hash_set : Finset ℕ
deriving DecidableEq

/-- The initial loop state of `sample_clauses`: empty accumulators. -/
def initState : SampleState := ⟨[], ∅, ∅⟩

/-- One iteration of the `while` loop of `sample_clauses`, for the candidate
clause `c` and uniform draw `u` of this iteration: classify by the number `i`
of satisfied literals, reject when `i = 0`, flip the `p[i-1]` coin, reject
fingerprint duplicates, and otherwise record the fingerprint, the touched
variables and the clause. -/
def sampleStep (vm : VarMapping) (hidden : Assignment) (p : List ℚ)
    (c : Clause) (u : ℚ) (st : SampleState) : SampleState :=
  let i := number_of_satisfied_literals c hidden
  if 0 < i ∧ unfair_coin_flip (p.getD (i - 1) 0) u = true then
    let hash_value := hash_clause vm c
    if hash_value ∈ st.clause_hash_set then st
    else
      { clauses := st.clauses ++ [c]
        variableset := c.foldl (fun s l => insert l.2 s) st.variableset
        clause_hash_set := insert hash_value st.clause_hash_set }
  else st

/-- The `while len(clauses) < m` loop of `sample_clauses`, with explicit fuel;
`j` indexes the iterations into the oracle stream `draws`.  Running out of
fuel before `m` clauses are accepted yields `none`: the Python loop would
still be running. -/
def sampleLoop (vm : VarMapping) (hidden : Assignment) (p : List ℚ) (m : ℕ)
    (draws : ℕ → Clause × ℚ) : ℕ → ℕ → SampleState → Option SampleState
  | 0, _, st => if m ≤ st.clauses.length then some st else none
  | fuel + 1, j, st =>
    if m ≤ st.clauses.length then some st
    else sampleLoop vm hidden p m draws fuel (j + 1)
      (sampleStep vm hidden p (draws j).1 (draws j).2 st)

/-- `sample_clauses(k, n, m, hidden_solution, s, p)` from `sample_clauses.py`.
The parameters `k`, `n` and `s` act only through the pseudo-random stream,
modelled by `draws` (see `DrawsShaped` for what `k` and `n` guarantee about
it); the function returns the pair `(variableset, clauses)`. -/
def sample_clauses (m : ℕ) (hidden : Assignment) (p : List ℚ) (vm : VarMapping)
    (draws : ℕ → Clause × ℚ) (fuel : ℕ) : Option (Finset ℤ × List Clause) :=
  (sampleLoop vm hidden p m draws fuel 0 initState).map
    fun st => (st.variableset, st.clauses)

/-- What `tuple((random.choice([True,False]), i) for i in random.sample(range(1,n+1), k))`
guarantees about every candidate clause of the stream: exactly `k` literals,
pairwise distinct variables, all in `[1, n]`. -/
def DrawsShaped (k : ℕ) (n : ℤ) (draws : ℕ → Clause × ℚ) : Prop :=
  ∀ j, (draws j).1.length = k ∧ ((draws j).1.map Prod.snd).Nodup ∧
    ∀ l ∈ (draws j).1, 1 ≤ l.2 ∧ l.2 ≤ n

/-- What `random.random()` guarantees about every uniform draw of the stream:
a value in `[0, 1)`. -/
def DrawsFair (draws : ℕ → Clause × ℚ) : Prop :=
  ∀ j, 0 ≤ (draws j).2 ∧ (draws j).2 < 1

/-- The CNF formula object of `cnfformula.py`: a variable count `n`, the list
of stored clauses (lists of signed integer literals), and a header. -/
structure CNF where
  n : ℤ
  clauses : List (List ℤ)
  header : String
deriving DecidableEq

/-- `CNF.__init__(n)`: the initially empty formula. -/
def CNF.new (n : ℤ) : CNF :=
  { n := n, clauses := [], header := "Default header" }

/-- The signed-integer form `lit if truth else -lit` a literal takes in
`add_clause`'s `clause_list`. -/
def signedLit (l : Lit) : ℤ :=
  if l.1 then l.2 else -l.2

/-- `CNF.add_clause(clause)` from `cnfformula.py`.  The iterability and type
checks of the source are static here (a `Clause` is a list of
`(Bool, ℤ)` pairs); the two `ValueError` checks are kept verbatim: a variable
with `lit > n` or `lit == 0` is invalid, and the clause must not repeat a
variable (`len(set(vars)) != len(clause)`).  On success the signed clause is
appended. -/
def CNF.add_clause (F : CNF) (clause : Clause) : Except String CNF :=
  if clause.any (fun l => decide (F.n < l.2) || decide (l.2 = 0)) then
    .error "Invalid clause. The clause may only contain positive/negative integers up to n/-n."
  else if ((clause.map Prod.snd).dedup.length ≠ clause.length) then
    .error "This class does not accept tautological clauses or clauses with reappearing literals."
  else
    .ok { F with clauses := F.clauses ++ [clause.map signedLit] }

/-- `CNF.dimacs()` from `cnfformula.py`: comment lines for the header, the
`p cnf` specification line, then one line per clause terminated by `0`. -/
def CNF.dimacs (F : CNF) : String :=
  let headerPart := String.join ((F.header.splitOn "\n").map fun hl => "c " ++ hl ++ "\n")
  let specPart := "p cnf " ++ toString F.n ++ " " ++ toString F.clauses.length ++ "\n"
  let clausePart := String.join (F.clauses.map fun cls =>
    String.intercalate " " (cls.map toString) ++ " 0\n")
  headerPart ++ specPart ++ clausePart

/-- The `for clause in clauselist: F.add_clause(clause)` loop of
`generator.main`, threading the `Except`ion of a failing `add_clause`. -/
def buildFormula (F : CNF) : List Clause → Except String CNF
  | [] => .ok F
  | c :: rest =>
    match F.add_clause c with
    | .ok F' => buildFormula F' rest
    | .error e => .error e

/-- The `while condition` retry loop of `generator.main`: attempt `t + 1`
samples with the derived seed `s + (t + 1)`, discards the attempt when the
touched-variable set has fewer than `n` elements, and otherwise builds the
formula from the accepted clauses.  A `ValueError` escaping the loop body
(in the source, only `add_clause` can raise one here) is caught and re-raised
as the resource-exhaustion error; `none` models a still-running loop. -/
def generatorLoop (n : ℤ) (m : ℕ) (hidden : Assignment) (p : List ℚ)
    (vm : VarMapping) (s : ℤ) (streamOf : ℤ → ℕ → Clause × ℚ) (innerFuel : ℕ) :
    ℕ → ℕ → Option (Except String CNF)
  | 0, _ => none
  | fuel + 1, t =>
    match sample_clauses m hidden p vm (streamOf (s + (t + 1))) innerFuel with
    | none => none
    | some (vars, clauselist) =>
      if (vars.card : ℤ) ≠ n then
        generatorLoop n m hidden p vm s streamOf innerFuel fuel (t + 1)
      else
        match buildFormula (CNF.new n) clauselist with
        | .ok F => some (.ok F)
        | .error _ =>
          some (.error "There are fewer clauses available than the number requested")

/-- Whether a stored signed literal is satisfied by the hidden assignment:
the literal of variable `|lit|` with the polarity given by the sign. -/
def signedSat (assignment : Assignment) (lit : ℤ) : Bool :=
  match assignment |lit| with
  | some b => decide (0 < lit) == b
  | none => false

/-- The number of satisfied literals of a stored signed clause. -/
def signedSatCount (assignment : Assignment) (cls : List ℤ) : ℕ :=
  cls.countP (signedSat assignment)

/-- The hidden assignment `{1: True}` over a single variable, used as a
concrete instance: the dict built by `generator.main` for `n = 1` when the
drawn hidden solution is the positive literal `1`. -/
def hiddenOne : Assignment :=
  fun v => if v = 1 then some true else none

/-- Invariant of the sampling loop for the instance `n = 1`, `k = 1`,
`hidden = {1: True}`: the only clause that can ever be accepted is
`((True, 1),)`, and once it is accepted its fingerprint blocks every further
acceptance.  Hence the accepted list never reaches length 2. -/
def ExhaustInv (vm : VarMapping) (st : SampleState) : Prop :=
  st.clauses = [] ∨
    (st.clauses = [[(true, 1)]] ∧ hash_clause vm [(true, 1)] ∈ st.clause_hash_set)

/-!
## Helper lemmas: shapes of the loop bodies
-/

/-- One sampling iteration either leaves the state unchanged or, when the
candidate has a positive satisfied count, wins its coin flip and is no
fingerprint duplicate, appends the candidate while recording its fingerprint
and variables. -/
theorem sampleStep_eq_or (vm : VarMapping) (hidden : Assignment) (p : List ℚ)
    (c : Clause) (u : ℚ) (st : SampleState) :
    sampleStep vm hidden p c u st = st ∨
    (0 < number_of_satisfied_literals c hidden ∧
      unfair_coin_flip (p.getD (number_of_satisfied_literals c hidden - 1) 0) u = true ∧
      hash_clause vm c ∉ st.clause_hash_set ∧
      sampleStep vm hidden p c u st =
        { clauses := st.clauses ++ [c]
          variableset := c.foldl (fun s l => insert l.2 s) st.variableset
          clause_hash_set := insert (hash_clause vm c) st.clause_hash_set }) := by
  simp only [sampleStep]
  split
  · rename_i hcond
    split
    · exact Or.inl rfl
    · rename_i hdup
      exact Or.inr ⟨hcond.1, hcond.2, hdup, rfl⟩
  · exact Or.inl rfl

/-- Any predicate on the loop state preserved by one sampling iteration holds
for the final state of a successful run of the sampling loop. -/
theorem sampleLoop_inv (vm : VarMapping) (hidden : Assignment) (p : List ℚ)
    (m : ℕ) (draws : ℕ → Clause × ℚ) (P : SampleState → Prop)
    (hstep : ∀ j st, P st → P (sampleStep vm hidden p (draws j).1 (draws j).2 st)) :
    ∀ fuel j st st', P st →
      sampleLoop vm hidden p m draws fuel j st = some st' → P st' := by
  intro fuel
  induction fuel with
  | zero =>
    intro j st st' hP hrun
    simp only [sampleLoop] at hrun
    split at hrun
    · injection hrun with h; exact h ▸ hP
    · cases hrun
  | succ fuel ih =>
    intro j st st' hP hrun
    simp only [sampleLoop] at hrun
    split at hrun
    · injection hrun with h; exact h ▸ hP
    · exact ih (j + 1) _ st' (hstep j st hP) hrun

/-- Membership in the variable set after folding one clause's variables in. -/
theorem mem_foldl_insert (c : Clause) :
    ∀ (s : Finset ℤ) (v : ℤ),
      v ∈ c.foldl (fun s l => insert l.2 s) s ↔ v ∈ s ∨ ∃ l ∈ c, l.2 = v := by
  induction c with
  | nil => intro s v; simp
  | cons a c ih =>
    intro s v
    simp only [List.foldl_cons, ih, Finset.mem_insert, List.mem_cons]
    constructor
    · rintro (⟨rfl | hv⟩ | ⟨l, hl, rfl⟩)
      · exact Or.inr ⟨a, Or.inl rfl, rfl⟩
      · exact Or.inl hv
      · exact Or.inr ⟨l, Or.inr hl, rfl⟩
    · rintro (hv | ⟨l, (rfl | hl), rfl⟩)
      · exact Or.inl (Or.inr hv)
      · exact Or.inl (Or.inl rfl)
      · exact Or.inr ⟨l, hl, rfl⟩

/-- Inverting a successful `sample_clauses` run: the pair returned is the
content of a final loop state. -/
theorem sample_clauses_ok (m : ℕ) (hidden : Assignment) (p : List ℚ)
    (vm : VarMapping) (draws : ℕ → Clause × ℚ) (fuel : ℕ) (vars : Finset ℤ)
    (cl : List Clause)
    (h : sample_clauses m hidden p vm draws fuel = some (vars, cl)) :
    ∃ st, sampleLoop vm hidden p m draws fuel 0 initState = some st ∧
      st.variableset = vars ∧ st.clauses = cl := by
  unfold sample_clauses at h
  cases hrun : sampleLoop vm hidden p m draws fuel 0 initState with
  | none => rw [hrun] at h; cases h
  | some st =>
    rw [hrun] at h
    simp only [Option.map_some'] at h
    injection h with h
    exact ⟨st, rfl, congrArg Prod.fst h, congrArg Prod.snd h⟩

/-- Inverting a successful `add_clause`: both validations passed and the
signed form of the clause was appended. -/
theorem add_clause_ok (F : CNF) (c : Clause) (F' : CNF)
    (h : F.add_clause c = .ok F') :
    F' = { F with clauses := F.clauses ++ [c.map signedLit] } ∧
      (∀ l ∈ c, ¬(F.n < l.2 ∨ l.2 = 0)) ∧
      (c.map Prod.snd).dedup.length = c.length := by
  unfold CNF.add_clause at h
  split at h
  · cases h
  · rename_i hrange
    split at h
    · cases h
    · rename_i hdup
      injection h with h
      refine ⟨h.symm, ?_, by omega⟩
      intro l hl hbad
      refine hrange ?_
      simp only [List.any_eq_true, Bool.or_eq_true, decide_eq_true_eq]
      exact ⟨l, hl, hbad⟩

/-- A successful `buildFormula` run appends exactly the signed forms of the
clause list, preserving `n` and the header. -/
theorem buildFormula_ok (cl : List Clause) :
    ∀ (F F' : CNF), buildFormula F cl = .ok F' →
      F'.clauses = F.clauses ++ cl.map (fun c => c.map signedLit) ∧
        F'.n = F.n ∧ F'.header = F.header := by
  induction cl with
  | nil =>
    intro F F' h
    injection h with h
    simp [h]
  | cons c rest ih =>
    intro F F' h
    unfold buildFormula at h
    cases hadd : F.add_clause c with
    | error e => rw [hadd] at h; cases h
    | ok F₁ =>
      rw [hadd] at h
      obtain ⟨hF₁, -, -⟩ := add_clause_ok F c F₁ hadd
      obtain ⟨h1, h2, h3⟩ := ih F₁ F' h
      subst hF₁
      simp only [h1, h2, h3, List.map_cons, List.append_assoc]
      simp

/-- Every clause of a successful `buildFormula` run came from the input list
(or the initial formula) via `signedLit`-conversion. -/
theorem buildFormula_clauses_mem (cl : List Clause) (n : ℤ) (F' : CNF)
    (h : buildFormula (CNF.new n) cl = .ok F') :
    ∀ cls ∈ F'.clauses, ∃ c ∈ cl, cls = c.map signedLit := by
  obtain ⟨h1, -, -⟩ := buildFormula_ok cl (CNF.new n) F' h
  intro cls hcls
  rw [h1] at hcls
  simp only [CNF.new, List.nil_append, List.mem_map] at hcls
  obtain ⟨c, hc, rfl⟩ := hcls
  exact ⟨c, hc, rfl⟩

/-- Inverting a successful `generatorLoop` run ending in a formula: some
attempt's sample achieved full variable coverage and the formula was built
from exactly that attempt's clause list. -/
theorem generatorLoop_ok (n : ℤ) (m : ℕ) (hidden : Assignment) (p : List ℚ)
    (vm : VarMapping) (s : ℤ) (streamOf : ℤ → ℕ → Clause × ℚ) (innerFuel : ℕ) :
    ∀ fuel t F,
      generatorLoop n m hidden p vm s streamOf innerFuel fuel t = some (.ok F) →
      ∃ t' vars cl,
        sample_clauses m hidden p vm (streamOf (s + (t' + 1))) innerFuel =
          some (vars, cl) ∧
        (vars.card : ℤ) = n ∧ buildFormula (CNF.new n) cl = .ok F := by
  intro fuel
  induction fuel with
  | zero => intro t F h; cases h
  | succ fuel ih =>
    intro t F h
    unfold generatorLoop at h
    cases hs : sample_clauses m hidden p vm (streamOf (s + (t + 1))) innerFuel with
    | none => rw [hs] at h; cases h
    | some pr =>
      rw [hs] at h
      obtain ⟨vars, cl⟩ := pr
      simp only at h
      split at h
      · exact ih (t + 1) F h
      · rename_i hcard
        cases hb : buildFormula (CNF.new n) cl with
        | ok F₁ =>
          rw [hb] at h
          simp only [Option.some.injEq] at h
          obtain rfl : F₁ = F := by
            cases h with
            | refl => rfl
          exact ⟨t, vars, cl, hs, by omega, hb⟩
        | error e =>
          rw [hb] at h
          simp only [Option.some.injEq] at h
          cases h

/-!
## Helper lemmas: invariants of the sampling loop
-/

/-- Every clause accepted by the sampling loop satisfies any property `Q` that
holds of every candidate passing the acceptance test (positive satisfied
count and won coin flip). -/
theorem sampleLoop_clauses (vm : VarMapping) (hidden : Assignment) (p : List ℚ)
    (m : ℕ) (draws : ℕ → Clause × ℚ) (Q : Clause → Prop)
    (hacc : ∀ j, 0 < number_of_satisfied_literals (draws j).1 hidden →
      unfair_coin_flip
        (p.getD (number_of_satisfied_literals (draws j).1 hidden - 1) 0)
        (draws j).2 = true →
      Q (draws j).1)
    (fuel : ℕ) (st' : SampleState)
    (hrun : sampleLoop vm hidden p m draws fuel 0 initState = some st') :
    ∀ c ∈ st'.clauses, Q c := by
  refine sampleLoop_inv vm hidden p m draws (fun st => ∀ c ∈ st.clauses, Q c)
    ?_ fuel 0 initState st' ?_ hrun
  · intro j st hst
    rcases sampleStep_eq_or vm hidden p (draws j).1 (draws j).2 st with heq |
      ⟨hpos, hcoin, -, heq⟩
    · rw [heq]; exact hst
    · rw [heq]
      intro c hc
      rcases List.mem_append.mp hc with hc | hc
      · exact hst c hc
      · rcases List.mem_singleton.mp hc with rfl
        exact hacc j hpos hcoin
  · intro c hc
    cases hc

/-- The accepted clauses of the sampling loop have pairwise distinct
fingerprints: every accepted clause's fingerprint enters the dedup set, and a
candidate whose fingerprint is already present is discarded. -/
theorem sampleLoop_hash_pairwise (vm : VarMapping) (hidden : Assignment)
    (p : List ℚ) (m : ℕ) (draws : ℕ → Clause × ℚ) (fuel : ℕ) (st' : SampleState)
    (hrun : sampleLoop vm hidden p m draws fuel 0 initState = some st') :
    st'.clauses.Pairwise (fun a b => hash_clause vm a ≠ hash_clause vm b) := by
  have hinv := sampleLoop_inv vm hidden p m draws
    (fun st => (∀ c ∈ st.clauses, hash_clause vm c ∈ st.clause_hash_set) ∧
      st.clauses.Pairwise (fun a b => hash_clause vm a ≠ hash_clause vm b))
    ?_ fuel 0 initState st' ?_ hrun
  · exact hinv.2
  · intro j st hst
    rcases sampleStep_eq_or vm hidden p (draws j).1 (draws j).2 st with heq |
      ⟨-, -, hnew, heq⟩
    · rw [heq]; exact hst
    · rw [heq]
      constructor
      · intro c hc
        rcases List.mem_append.mp hc with hc | hc
        · exact Finset.mem_insert_of_mem (hst.1 c hc)
        · rcases List.mem_singleton.mp hc with rfl
          exact Finset.mem_insert_self _ _
      · rw [List.pairwise_append]
        refine ⟨hst.2, List.pairwise_singleton _ _, ?_⟩
        intro a ha b hb
        rcases List.mem_singleton.mp hb with rfl
        intro hab
        exact hnew (hab ▸ hst.1 a ha)
  · exact ⟨fun c hc => absurd hc (List.not_mem_nil c), List.Pairwise.nil⟩

/-- Every variable in the touched-variable set of the sampling loop occurs in
one of the accepted clauses. -/
theorem sampleLoop_variableset_sound (vm : VarMapping) (hidden : Assignment)
    (p : List ℚ) (m : ℕ) (draws : ℕ → Clause × ℚ) (fuel : ℕ) (st' : SampleState)
    (hrun : sampleLoop vm hidden p m draws fuel 0 initState = some st') :
    ∀ v ∈ st'.variableset, ∃ c ∈ st'.clauses, ∃ l ∈ c, l.2 = v := by
  have hinv := sampleLoop_inv vm hidden p m draws
    (fun st => ∀ v ∈ st.variableset, ∃ c ∈ st.clauses, ∃ l ∈ c, l.2 = v)
    ?_ fuel 0 initState st' ?_ hrun
  · exact hinv
  · intro j st hst
    rcases sampleStep_eq_or vm hidden p (draws j).1 (draws j).2 st with heq |
      ⟨-, -, -, heq⟩
    · rw [heq]; exact hst
    · rw [heq]
      intro v hv
      rcases (mem_foldl_insert (draws j).1 st.variableset v).mp hv with hv | ⟨l, hl, rfl⟩
      · obtain ⟨c, hc, hlc⟩ := hst v hv
        exact ⟨c, List.mem_append_left _ hc, hlc⟩
      · exact ⟨(draws j).1, List.mem_append_right _ (List.mem_singleton_self _),
          l, hl, rfl⟩
  · intro v hv
    cases hv

/-- With candidates drawn from `1..n`, the touched-variable set stays inside
`[1, n]`. -/
theorem sampleLoop_variableset_subset (vm : VarMapping) (hidden : Assignment)
    (p : List ℚ) (m k : ℕ) (n : ℤ) (draws : ℕ → Clause × ℚ)
    (hshape : DrawsShaped k n draws) (fuel : ℕ) (st' : SampleState)
    (hrun : sampleLoop vm hidden p m draws fuel 0 initState = some st') :
    st'.variableset ⊆ Finset.Icc 1 n := by
  have hinv := sampleLoop_inv vm hidden p m draws
    (fun st => st.variableset ⊆ Finset.Icc 1 n) ?_ fuel 0 initState st' ?_ hrun
  · exact hinv
  · intro j st hst
    rcases sampleStep_eq_or vm hidden p (draws j).1 (draws j).2 st with heq |
      ⟨-, -, -, heq⟩
    · rw [heq]; exact hst
    · rw [heq]
      intro v hv
      rcases (mem_foldl_insert (draws j).1 st.variableset v).mp hv with hv | ⟨l, hl, rfl⟩
      · exact hst hv
      · obtain ⟨h1, h2⟩ := (hshape j).2.2 l hl
        exact Finset.mem_Icc.mpr ⟨h1, h2⟩
  · intro v hv
    cases hv

/-!
## Helper lemmas: between sampled clauses and stored signed clauses
-/

/-- The absolute value of a stored signed literal is its variable, for
variables from `1..n`. -/
theorem abs_signedLit (l : Lit) (hl : 1 ≤ l.2) : |signedLit l| = l.2 := by
  rcases l with ⟨pol, v⟩
  simp only at hl
  have h0 : (0 : ℤ) < v := by omega
  cases pol
  · have h : signedLit (false, v) = -v := rfl
    rw [h, abs_neg, abs_of_pos h0]
  · have h : signedLit (true, v) = v := rfl
    rw [h, abs_of_pos h0]

/-- A stored signed literal is satisfied exactly when the sampled literal it
came from is, for variables from `1..n`. -/
theorem signedSat_signedLit (hidden : Assignment) (l : Lit) (hl : 1 ≤ l.2) :
    signedSat hidden (signedLit l) = satLit hidden l := by
  rcases l with ⟨pol, v⟩
  simp only at hl
  have habs : |signedLit (pol, v)| = v := abs_signedLit (pol, v) hl
  have hpol : decide (0 < signedLit (pol, v)) = pol := by
    cases pol
    · have h : signedLit (false, v) = -v := rfl
      rw [h]
      exact decide_eq_false (by omega)
    · have h : signedLit (true, v) = v := rfl
      rw [h]
      exact decide_eq_true (by omega)
  unfold signedSat satLit
  rw [habs]
  simp only [hpol]

/-- The satisfied-literal count of the stored signed clause equals that of
the sampled clause it came from, for variables from `1..n`. -/
theorem signedSatCount_map (hidden : Assignment) (c : Clause)
    (hc : ∀ l ∈ c, 1 ≤ l.2) :
    signedSatCount hidden (c.map signedLit) = number_of_satisfied_literals c hidden := by
  unfold signedSatCount number_of_satisfied_literals
  rw [List.countP_map]
  refine List.countP_congr fun l hl => ?_
  rw [Function.comp_apply, signedSat_signedLit hidden l (hc l hl)]

/-- `signedLit` is injective on literals with variables from `1..n`. -/
theorem signedLit_inj (l₁ l₂ : Lit) (h₁ : 1 ≤ l₁.2) (h₂ : 1 ≤ l₂.2)
    (h : signedLit l₁ = signedLit l₂) : l₁ = l₂ := by
  rcases l₁ with ⟨p₁, v₁⟩
  rcases l₂ with ⟨p₂, v₂⟩
  simp only at h₁ h₂
  cases p₁ <;> cases p₂ <;> simp only [signedLit] at h <;> simp at h <;> try omega
  · have hv : v₁ = v₂ := by omega
    rw [hv]
  · have hv : v₁ = v₂ := by omega
    rw [hv]

/-- Two sampled clauses over `1..n` whose stored signed forms have the same
literal set have the same literal set themselves. -/
theorem toFinset_eq_of_map_signedLit (a b : Clause)
    (ha : ∀ l ∈ a, 1 ≤ l.2) (hb : ∀ l ∈ b, 1 ≤ l.2)
    (h : (a.map signedLit).toFinset = (b.map signedLit).toFinset) :
    a.toFinset = b.toFinset := by
  ext l
  simp only [List.mem_toFinset]
  constructor
  · intro hl
    have hm : signedLit l ∈ (a.map signedLit).toFinset := by
      simp only [List.mem_toFinset, List.mem_map]
      exact ⟨l, hl, rfl⟩
    rw [h] at hm
    simp only [List.mem_toFinset, List.mem_map] at hm
    obtain ⟨l', hl', heq⟩ := hm
    rw [signedLit_inj l' l (hb l' hl') (ha l hl) heq] at hl'
    exact hl'
  · intro hl
    have hm : signedLit l ∈ (b.map signedLit).toFinset := by
      simp only [List.mem_toFinset, List.mem_map]
      exact ⟨l, hl, rfl⟩
    rw [← h] at hm
    simp only [List.mem_toFinset, List.mem_map] at hm
    obtain ⟨l', hl', heq⟩ := hm
    rw [signedLit_inj l' l (ha l' hl') (hb l hl) heq] at hl'
    exact hl'

/-- Clauses with equal literal sets have equal fingerprints: the fingerprint
is a sum, hence order-independent. -/
theorem hash_clause_eq_of_toFinset_eq (vm : VarMapping) (a b : Clause)
    (hna : a.Nodup) (hnb : b.Nodup) (h : a.toFinset = b.toFinset) :
    hash_clause vm a = hash_clause vm b := by
  have hperm : a.Perm b := List.perm_of_nodup_nodup_toFinset_eq hna hnb h
  unfold hash_clause
  exact (hperm.map vm).sum_eq

/-!
## Helper lemmas: the exhausted instance n = 1, k = 1, m = 2
-/

/-- One sampling iteration preserves `ExhaustInv` when every candidate is a
one-literal clause over the single variable `1`. -/
theorem exhaustStep (vm : VarMapping) (c : Clause) (u : ℚ) (st : SampleState)
    (hc : ∃ b, c = [(b, (1 : ℤ))]) (hinv : ExhaustInv vm st) :
    ExhaustInv vm (sampleStep vm hiddenOne [1] c u st) := by
  obtain ⟨b, rfl⟩ := hc
  rcases sampleStep_eq_or vm hiddenOne [1] [(b, (1 : ℤ))] u st with heq |
    ⟨hpos, -, hnot, heq⟩
  · rw [heq]; exact hinv
  · cases b
    · exfalso
      have hnum : number_of_satisfied_literals [(false, (1 : ℤ))] hiddenOne = 0 := by
        decide
      rw [hnum] at hpos
      exact absurd hpos (by omega)
    · rw [heq]
      rcases hinv with hnil | ⟨-, hmem⟩
      · exact Or.inr ⟨by rw [hnil]; rfl, Finset.mem_insert_self _ _⟩
      · exact absurd hmem hnot

/-- On the instance `n = 1`, `k = 1`, `hidden = {1: True}`, `p = [1]`, asking
for `m = 2` clauses makes the sampling loop run forever: whatever the fuel,
it never returns. -/
theorem sampleLoop_exhaust_none (vm : VarMapping) (draws : ℕ → Clause × ℚ)
    (hdraws : ∀ j, ∃ b, (draws j).1 = [(b, (1 : ℤ))]) :
    ∀ fuel j st, ExhaustInv vm st →
      sampleLoop vm hiddenOne [1] 2 draws fuel j st = none := by
  intro fuel
  induction fuel with
  | zero =>
    intro j st hinv
    have hlen : st.clauses.length ≤ 1 := by
      rcases hinv with h | ⟨h, -⟩ <;> simp [h]
    simp only [sampleLoop]
    rw [if_neg (by omega)]
  | succ fuel ih =>
    intro j st hinv
    have hlen : st.clauses.length ≤ 1 := by
      rcases hinv with h | ⟨h, -⟩ <;> simp [h]
    simp only [sampleLoop]
    rw [if_neg (by omega)]
    exact ih (j + 1) _ (exhaustStep vm _ _ st (hdraws j) hinv)

/-!
## Helper lemmas: the orchestrator consults only the derived seeds
-/

/-- The orchestrator's output depends on the pseudo-random stream family only
through the streams at the derived seeds `s + t'` for attempt counters
`t' > t`: every sub-seed is the pure function `seed + attempt` of the base
seed. -/
theorem generatorLoop_congr (n : ℤ) (m : ℕ) (hidden : Assignment) (p : List ℚ)
    (vm : VarMapping) (s : ℤ) (streamOf₁ streamOf₂ : ℤ → ℕ → Clause × ℚ)
    (innerFuel : ℕ)
    (h : ∀ a : ℕ, streamOf₁ (s + (a + 1)) = streamOf₂ (s + (a + 1))) :
    ∀ fuel t, generatorLoop n m hidden p vm s streamOf₁ innerFuel fuel t =
      generatorLoop n m hidden p vm s streamOf₂ innerFuel fuel t := by
  intro fuel
  induction fuel with
  | zero => intro t; rfl
  | succ fuel ih =>
    intro t
    unfold generatorLoop
    rw [h t]
    simp only [ih]

/-!
## Claim theorems
-/

/-- C1: for every successful run of the generator, every clause of the output
formula is satisfied by the hidden assignment used: the sampler
unconditionally rejects any candidate clause with zero satisfied literals
(`i > 0` guards acceptance), so each clause appended to the formula contains
at least one literal agreeing with the hidden assignment. -/
theorem generator_plantedness (n : ℤ) (m k : ℕ) (hidden : Assignment)
    (p : List ℚ) (vm : VarMapping) (s : ℤ) (streamOf : ℤ → ℕ → Clause × ℚ)
    (innerFuel fuel t : ℕ) (F : CNF)
    (hshape : ∀ seed, DrawsShaped k n (streamOf seed))
    (hrun : generatorLoop n m hidden p vm s streamOf innerFuel fuel t = some (.ok F)) :
    ∀ cls ∈ F.clauses, ∃ lit ∈ cls, signedSat hidden lit = true := by
  obtain ⟨t', vars, cl, hs, hcard, hb⟩ :=
    generatorLoop_ok n m hidden p vm s streamOf innerFuel fuel t F hrun
  obtain ⟨st, hloop, hvars, hcl⟩ := sample_clauses_ok m hidden p vm _ innerFuel vars cl hs
  have hposst := sampleLoop_clauses vm hidden p m _
    (fun c => 0 < number_of_satisfied_literals c hidden)
    (fun j hp _ => hp) innerFuel st hloop
  have hshapest := sampleLoop_clauses vm hidden p m _
    (fun c => ∀ l ∈ c, 1 ≤ l.2)
    (fun j _ _ l hl => ((hshape _ j).2.2 l hl).1) innerFuel st hloop
  rw [hcl] at hposst hshapest
  intro cls hcls
  obtain ⟨c, hc, rfl⟩ := buildFormula_clauses_mem cl n F hb cls hcls
  have h1 : 0 < number_of_satisfied_literals c hidden := hposst c hc
  have h2 : ∀ l ∈ c, 1 ≤ l.2 := hshapest c hc
  unfold number_of_satisfied_literals at h1
  obtain ⟨l, hl, hsat⟩ := List.countP_pos_iff.mp h1
  exact ⟨signedLit l, List.mem_map_of_mem _ hl,
    by rw [signedSat_signedLit hidden l (h2 l hl), hsat]⟩

/-- Witness for C1 at a concrete successful run (`n = m = k = 1`). -/
theorem generator_plantedness_witness :
    ∃ lit ∈ [(1 : ℤ)], signedSat hiddenOne lit = true :=
  generator_plantedness 1 1 1 hiddenOne [1] (fun _ => 0) 42
    (fun _ _ => ([(true, 1)], 0)) 1 1 0
    { n := 1, clauses := [[1]], header := "Default header" }
    (fun _ _ => ⟨rfl, List.nodup_singleton _,
      fun l hl => by rcases List.mem_singleton.mp hl with rfl; exact ⟨le_refl 1, le_refl 1⟩⟩)
    (by rfl) [1] (by simp)

/-- C2: for fixed `(n, m, k, p, seed, hidden assignment)` the generator's
output is byte-identical across runs: every pseudo-random sub-seed used in
attempt `t` is the pure function `seed + t` of the base seed and attempt
counter, so two stream families agreeing at the derived seeds produce the
same formula, hence the same DIMACS text.  (The header `main` later installs
is itself a pure function of the same parameters.) -/
theorem generator_deterministic (n : ℤ) (m : ℕ) (hidden : Assignment)
    (p : List ℚ) (vm : VarMapping) (s : ℤ)
    (streamOf₁ streamOf₂ : ℤ → ℕ → Clause × ℚ) (innerFuel fuel : ℕ)
    (h : ∀ t : ℕ, streamOf₁ (s + (t + 1)) = streamOf₂ (s + (t + 1))) :
    (generatorLoop n m hidden p vm s streamOf₁ innerFuel fuel 0).map
        (Except.map CNF.dimacs) =
      (generatorLoop n m hidden p vm s streamOf₂ innerFuel fuel 0).map
        (Except.map CNF.dimacs) := by
  rw [generatorLoop_congr n m hidden p vm s streamOf₁ streamOf₂ innerFuel h fuel 0]

/-- Witness for C2: two syntactically different stream families that agree at
every derived seed `42 + (t + 1)` yield identical DIMACS output. -/
theorem generator_deterministic_witness :
    (generatorLoop 1 1 hiddenOne [1] (fun _ => 0) 42
        (fun _ _ => ([(true, 1)], 0)) 1 1 0).map (Except.map CNF.dimacs) =
      (generatorLoop 1 1 hiddenOne [1] (fun _ => 0) 42
        (fun seed j => if seed ≤ 42 then ([], 1) else ([(true, 1)], 0)) 1 1 0).map
        (Except.map CNF.dimacs) :=
  generator_deterministic 1 1 hiddenOne [1] (fun _ => 0) 42 _ _ 1 1
    (fun t => by rw [if_neg (by omega)])

/-- C3: in every formula handed to the serializer, each variable `1..n`
appears in at least one clause: the orchestrator discards any sampling
attempt whose touched-variable set has fewer than `n` elements and commits
clauses only from an attempt with full coverage. -/
theorem generator_coverage (n : ℤ) (m k : ℕ) (hidden : Assignment)
    (p : List ℚ) (vm : VarMapping) (s : ℤ) (streamOf : ℤ → ℕ → Clause × ℚ)
    (innerFuel fuel t : ℕ) (F : CNF)
    (hshape : ∀ seed, DrawsShaped k n (streamOf seed))
    (hrun : generatorLoop n m hidden p vm s streamOf innerFuel fuel t = some (.ok F)) :
    ∀ v : ℤ, 1 ≤ v → v ≤ n → ∃ cls ∈ F.clauses, ∃ lit ∈ cls, |lit| = v := by
  obtain ⟨t', vars, cl, hs, hcard, hb⟩ :=
    generatorLoop_ok n m hidden p vm s streamOf innerFuel fuel t F hrun
  obtain ⟨st, hloop, hvars, hcl⟩ := sample_clauses_ok m hidden p vm _ innerFuel vars cl hs
  have hsub : st.variableset ⊆ Finset.Icc 1 n :=
    sampleLoop_variableset_subset vm hidden p m k n _ (hshape _) innerFuel st hloop
  have hsound := sampleLoop_variableset_sound vm hidden p m _ innerFuel st hloop
  have hshapest := sampleLoop_clauses vm hidden p m _
    (fun c => ∀ l ∈ c, 1 ≤ l.2)
    (fun j _ _ l hl => ((hshape _ j).2.2 l hl).1) innerFuel st hloop
  have hicc : (Finset.Icc (1 : ℤ) n).card ≤ st.variableset.card := by
    rw [Int.card_Icc, hvars]
    omega
  have heq : st.variableset = Finset.Icc 1 n := Finset.eq_of_subset_of_card_le hsub hicc
  intro v hv1 hv2
  have hvmem : v ∈ st.variableset := by
    rw [heq]
    exact Finset.mem_Icc.mpr ⟨hv1, hv2⟩
  obtain ⟨c, hc, l, hl, hlv⟩ := hsound v hvmem
  refine ⟨c.map signedLit, ?_, signedLit l, List.mem_map_of_mem _ hl, ?_⟩
  · have hFcl := (buildFormula_ok cl (CNF.new n) F hb).1
    rw [hFcl]
    refine List.mem_append_right _ ?_
    exact List.mem_map_of_mem _ (hcl ▸ hc)
  · rw [abs_signedLit l (hshapest c hc l hl), hlv]

/-- Witness for C3 at a concrete successful run (`n = m = k = 1`). -/
theorem generator_coverage_witness :
    ∃ cls ∈ ({ n := 1, clauses := [[1]], header := "Default header" } : CNF).clauses,
      ∃ lit ∈ cls, |lit| = (1 : ℤ) :=
  generator_coverage 1 1 1 hiddenOne [1] (fun _ => 0) 42
    (fun _ _ => ([(true, 1)], 0)) 1 1 0
    { n := 1, clauses := [[1]], header := "Default header" }
    (fun _ _ => ⟨rfl, List.nodup_singleton _,
      fun l hl => by rcases List.mem_singleton.mp hl with rfl; exact ⟨le_refl 1, le_refl 1⟩⟩)
    (by rfl) 1 (le_refl 1) (le_refl 1)

/-- C4: no two clauses in one generated formula have the same literal set:
equal literal sets give equal sum-based fingerprints, the first acceptance
records the fingerprint in the run's dedup set, and any later candidate with
that fingerprint is discarded before being appended. -/
theorem generator_unique_clauses (n : ℤ) (m k : ℕ) (hidden : Assignment)
    (p : List ℚ) (vm : VarMapping) (s : ℤ) (streamOf : ℤ → ℕ → Clause × ℚ)
    (innerFuel fuel t : ℕ) (F : CNF)
    (hshape : ∀ seed, DrawsShaped k n (streamOf seed))
    (hrun : generatorLoop n m hidden p vm s streamOf innerFuel fuel t = some (.ok F)) :
    F.clauses.Pairwise (fun a b => a.toFinset ≠ b.toFinset) := by
  obtain ⟨t', vars, cl, hs, hcard, hb⟩ :=
    generatorLoop_ok n m hidden p vm s streamOf innerFuel fuel t F hrun
  obtain ⟨st, hloop, hvars, hcl⟩ := sample_clauses_ok m hidden p vm _ innerFuel vars cl hs
  have hpw := sampleLoop_hash_pairwise vm hidden p m _ innerFuel st hloop
  have hshapest := sampleLoop_clauses vm hidden p m _
    (fun c => ((c.map Prod.snd).Nodup ∧ ∀ l ∈ c, 1 ≤ l.2))
    (fun j _ _ => ⟨(hshape _ j).2.1, fun l hl => ((hshape _ j).2.2 l hl).1⟩)
    innerFuel st hloop
  rw [hcl] at hpw hshapest
  have hFcl := (buildFormula_ok cl (CNF.new n) F hb).1
  rw [hFcl]
  have hnil : (CNF.new n).clauses = [] := rfl
  rw [hnil, List.nil_append, List.pairwise_map]
  refine hpw.imp_of_mem ?_
  intro a b ha hb' hne heqset
  apply hne
  obtain ⟨hna, hpa⟩ := hshapest a ha
  obtain ⟨hnb, hpb⟩ := hshapest b hb'
  have hset : a.toFinset = b.toFinset :=
    toFinset_eq_of_map_signedLit a b hpa hpb heqset
  exact hash_clause_eq_of_toFinset_eq vm a b (hna.of_map _) (hnb.of_map _) hset

/-- Witness for C4 at a concrete successful run (`n = m = k = 1`). -/
theorem generator_unique_clauses_witness :
    ([[(1 : ℤ)]] : List (List ℤ)).Pairwise (fun a b => a.toFinset ≠ b.toFinset) :=
  generator_unique_clauses 1 1 1 hiddenOne [1] (fun _ => 0) 42
    (fun _ _ => ([(true, 1)], 0)) 1 1 0
    { n := 1, clauses := [[1]], header := "Default header" }
    (fun _ _ => ⟨rfl, List.nodup_singleton _,
      fun l hl => by rcases List.mem_singleton.mp hl with rfl; exact ⟨le_refl 1, le_refl 1⟩⟩)
    (by rfl)

/-- C5: every clause in a generated formula has exactly `k` literals, with
pairwise distinct variables all in `[1, n]`: candidate variables are sampled
without replacement from `1..n`, and `add_clause` re-validates each clause at
insertion time. -/
theorem generator_clause_shape (n : ℤ) (m k : ℕ) (hidden : Assignment)
    (p : List ℚ) (vm : VarMapping) (s : ℤ) (streamOf : ℤ → ℕ → Clause × ℚ)
    (innerFuel fuel t : ℕ) (F : CNF)
    (hshape : ∀ seed, DrawsShaped k n (streamOf seed))
    (hrun : generatorLoop n m hidden p vm s streamOf innerFuel fuel t = some (.ok F)) :
    ∀ cls ∈ F.clauses, cls.length = k ∧ (cls.map (fun lit => |lit|)).Nodup ∧
      ∀ lit ∈ cls, 1 ≤ |lit| ∧ |lit| ≤ n := by
  obtain ⟨t', vars, cl, hs, hcard, hb⟩ :=
    generatorLoop_ok n m hidden p vm s streamOf innerFuel fuel t F hrun
  obtain ⟨st, hloop, hvars, hcl⟩ := sample_clauses_ok m hidden p vm _ innerFuel vars cl hs
  have hshapest := sampleLoop_clauses vm hidden p m _
    (fun c => c.length = k ∧ (c.map Prod.snd).Nodup ∧ ∀ l ∈ c, 1 ≤ l.2 ∧ l.2 ≤ n)
    (fun j _ _ => hshape _ j) innerFuel st hloop
  rw [hcl] at hshapest
  intro cls hcls
  obtain ⟨c, hc, rfl⟩ := buildFormula_clauses_mem cl n F hb cls hcls
  obtain ⟨hlen, hnodup, hbound⟩ := hshapest c hc
  have habs : (c.map signedLit).map (fun lit => |lit|) = c.map Prod.snd := by
    rw [List.map_map]
    exact List.map_congr_left fun l hl => abs_signedLit l (hbound l hl).1
  refine ⟨by rw [List.length_map, hlen], by rw [habs]; exact hnodup, ?_⟩
  intro lit hlit
  obtain ⟨l, hl, rfl⟩ := List.mem_map.mp hlit
  rw [abs_signedLit l (hbound l hl).1]
  exact hbound l hl

/-- Witness for C5 at a concrete successful run (`n = m = k = 1`). -/
theorem generator_clause_shape_witness :
    ([(1 : ℤ)] : List ℤ).length = 1 ∧
      (([(1 : ℤ)] : List ℤ).map (fun lit => |lit|)).Nodup ∧
      ∀ lit ∈ ([(1 : ℤ)] : List ℤ), 1 ≤ |lit| ∧ |lit| ≤ (1 : ℤ) :=
  generator_clause_shape 1 1 1 hiddenOne [1] (fun _ => 0) 42
    (fun _ _ => ([(true, 1)], 0)) 1 1 0
    { n := 1, clauses := [[1]], header := "Default header" }
    (fun _ _ => ⟨rfl, List.nodup_singleton _,
      fun l hl => by rcases List.mem_singleton.mp hl with rfl; exact ⟨le_refl 1, le_refl 1⟩⟩)
    (by rfl) [1] (by simp)

/-- C6: for a class `i` with `p_vector[i-1] = 0`, no clause of the generated
formula has exactly `i` satisfied literals under the hidden assignment
(a zero probability forces rejection, since the uniform draw is `≥ 0`); and
for `p_vector[i-1] = 1` every candidate of class `i` that survives
deduplication is accepted by the sampling iteration (the uniform draw lies
in `[0,1)`, hence below `1`). -/
theorem generator_class_suppression (n : ℤ) (m k : ℕ) (hidden : Assignment)
    (p : List ℚ) (vm : VarMapping) (s : ℤ) (streamOf : ℤ → ℕ → Clause × ℚ)
    (innerFuel fuel t : ℕ) (F : CNF) (i : ℕ)
    (hshape : ∀ seed, DrawsShaped k n (streamOf seed))
    (hfair : ∀ seed, DrawsFair (streamOf seed))
    (hrun : generatorLoop n m hidden p vm s streamOf innerFuel fuel t = some (.ok F)) :
    (p.getD (i - 1) 0 = 0 → ∀ cls ∈ F.clauses, signedSatCount hidden cls ≠ i) ∧
      (∀ (c : Clause) (u : ℚ) (st : SampleState),
        number_of_satisfied_literals c hidden = i → 0 < i →
        p.getD (i - 1) 0 = 1 → 0 ≤ u → u < 1 →
        hash_clause vm c ∉ st.clause_hash_set →
        (sampleStep vm hidden p c u st).clauses = st.clauses ++ [c]) := by
  obtain ⟨t', vars, cl, hs, hcard, hb⟩ :=
    generatorLoop_ok n m hidden p vm s streamOf innerFuel fuel t F hrun
  obtain ⟨st, hloop, hvars, hcl⟩ := sample_clauses_ok m hidden p vm _ innerFuel vars cl hs
  constructor
  · intro hp0
    have hQ := sampleLoop_clauses vm hidden p m _
      (fun c => number_of_satisfied_literals c hidden ≠ i)
      (by
        intro j hpos hcoin heqi
        rw [heqi, hp0] at hcoin
        have hu := (hfair (s + (t' + 1)) j).1
        have hlt : (streamOf (s + (t' + 1)) j).2 < 0 := of_decide_eq_true hcoin
        linarith) innerFuel st hloop
    have hshapest := sampleLoop_clauses vm hidden p m _
      (fun c => ∀ l ∈ c, 1 ≤ l.2)
      (fun j _ _ l hl => ((hshape _ j).2.2 l hl).1) innerFuel st hloop
    rw [hcl] at hQ hshapest
    intro cls hcls
    obtain ⟨c, hc, rfl⟩ := buildFormula_clauses_mem cl n F hb cls hcls
    rw [signedSatCount_map hidden c (hshapest c hc)]
    exact hQ c hc
  · intro c u st' hnum hpos hp1 hu0 hu1 hnew
    have hcoin : unfair_coin_flip (p.getD (i - 1) 0) u = true := by
      rw [hp1]
      exact decide_eq_true hu1
    simp only [sampleStep, hnum]
    rw [if_pos ⟨hpos, hcoin⟩, if_neg hnew]

/-- Witness for C6: class 2 is suppressed under `p = [1]` (its probability
entry defaults to 0), and a fresh class-1 candidate is accepted under
`p[0] = 1`. -/
theorem generator_class_suppression_witness :
    signedSatCount hiddenOne [(1 : ℤ)] ≠ 2 ∧
      (sampleStep (fun _ => 0) hiddenOne [1] [(true, (1 : ℤ))] 0 initState).clauses =
        initState.clauses ++ [[(true, (1 : ℤ))]] :=
  ⟨(generator_class_suppression 1 1 1 hiddenOne [1] (fun _ => 0) 42
      (fun _ _ => ([(true, 1)], 0)) 1 1 0
      { n := 1, clauses := [[1]], header := "Default header" } 2
      (fun _ _ => ⟨rfl, List.nodup_singleton _,
        fun l hl => by rcases List.mem_singleton.mp hl with rfl; exact ⟨le_refl 1, le_refl 1⟩⟩)
      (fun _ _ => ⟨le_refl 0, by norm_num⟩)
      (by rfl)).1 (by norm_num) [1] (by simp),
    (generator_class_suppression 1 1 1 hiddenOne [1] (fun _ => 0) 42
      (fun _ _ => ([(true, 1)], 0)) 1 1 0
      { n := 1, clauses := [[1]], header := "Default header" } 1
      (fun _ _ => ⟨rfl, List.nodup_singleton _,
        fun l hl => by rcases List.mem_singleton.mp hl with rfl; exact ⟨le_refl 1, le_refl 1⟩⟩)
      (fun _ _ => ⟨le_refl 0, by norm_num⟩)
      (by rfl)).2 [(true, 1)] 0 initState (by decide) (by norm_num) (by norm_num)
      (le_refl 0) (by norm_num) (by decide)⟩

/-- C7 (refuted — code bug): the fingerprint-table initialization draws its
values from the module-global pseudo-random stream (the local `rng` seeded
with the hasher's `seed` parameter is created but never used), so the table
contents do NOT depend only on `n` and the hasher seed: with `n = 1` and the
hasher seed fixed at its default `42`, two different global-stream draws
(both valid results of `random.sample(range(2**32-1), 2)`) give different
tables, while changing the hasher seed from `42` to `7` changes nothing. -/
theorem init_variable_mapping_ignores_seed :
    init_variable_mapping [0, 1] 1 42 = init_variable_mapping [0, 1] 1 7 ∧
      ValidGlobalSample [0, 1] 1 ∧ ValidGlobalSample [2, 3] 1 ∧
      init_variable_mapping [0, 1] 1 42 (true, 1) = some 0 ∧
      init_variable_mapping [2, 3] 1 42 (true, 1) = some 2 := by
  refine ⟨rfl, ⟨rfl, by decide, by decide⟩, ⟨rfl, by decide, by decide⟩, by decide, by decide⟩

/-- C8 counterexample: `add_clause` accepts a clause whose variable is not in
`[1, n]`: the range check `lit > n or lit == 0` does not reject the negative
variable `-1`, so `((True, -1),)` is appended for `n = 3`. -/
theorem add_clause_accepts_negative_variable :
    (CNF.new 3).add_clause [(true, -1)] =
      .ok { n := 3, clauses := [[-1]], header := "Default header" } := by
  rfl

/-- C8 amended: `add_clause` fails with the invalid-clause error (and builds
no formula) when some variable `v` has `v > n` or `v = 0` — a negative
variable passes the range check — and on success the clause count increases
by exactly one. -/
theorem add_clause_range_error_and_count (F : CNF) (c : Clause) :
    ((∃ l ∈ c, F.n < l.2 ∨ l.2 = 0) →
        F.add_clause c =
          .error "Invalid clause. The clause may only contain positive/negative integers up to n/-n.") ∧
      ∀ F', F.add_clause c = .ok F' → F'.clauses.length = F.clauses.length + 1 := by
  constructor
  · rintro ⟨l, hl, hbad⟩
    unfold CNF.add_clause
    rw [if_pos]
    simp only [List.any_eq_true, Bool.or_eq_true, decide_eq_true_eq]
    exact ⟨l, hl, hbad⟩
  · intro F' hok
    obtain ⟨rfl, -, -⟩ := add_clause_ok F c F' hok
    simp

/-- Witness for the amended C8: for `n = 3`, the out-of-range variable `4`
triggers the invalid-clause error. -/
theorem add_clause_range_error_and_count_witness :
    (CNF.new 3).add_clause [(true, 4)] =
      .error "Invalid clause. The clause may only contain positive/negative integers up to n/-n." :=
  (add_clause_range_error_and_count (CNF.new 3) [(true, 4)]).1
    ⟨(true, 4), List.mem_singleton_self _, Or.inl (by decide)⟩

/-- C9 (refuted — code bug): when `m` exceeds the number of distinct valid
clauses (here `n = 1`, `k = 1`, `m = 2`, `p = [1]`, hidden `{1: True}`:
only the clause `((True, 1),)` is ever acceptable, and deduplication blocks
its second acceptance), the generator does not surface the documented
resource-exhaustion error — it never terminates: whatever fuel is granted to
the inner and outer loops, the run is still in progress (`none`), and no
`'fewer clauses available'` error (or any other result) is ever produced. -/
theorem generator_exhaustion_never_terminates (vm : VarMapping)
    (streamOf : ℤ → ℕ → Clause × ℚ) (s : ℤ)
    (hstream : ∀ seed j, ∃ b, (streamOf seed j).1 = [(b, (1 : ℤ))])
    (innerFuel fuel t : ℕ) :
    generatorLoop 1 2 hiddenOne [1] vm s streamOf innerFuel fuel t = none := by
  induction fuel generalizing t with
  | zero => rfl
  | succ fuel ih =>
    unfold generatorLoop
    have hs : sample_clauses 2 hiddenOne [1] vm (streamOf (s + (t + 1))) innerFuel = none := by
      unfold sample_clauses
      rw [sampleLoop_exhaust_none vm _ (hstream _) innerFuel 0 initState (Or.inl rfl)]
      rfl
    rw [hs]

/-- Witness for C9 at concrete fuels and streams. -/
theorem generator_exhaustion_never_terminates_witness :
    generatorLoop 1 2 hiddenOne [1] (fun _ => 0) 42
      (fun _ _ => ([(true, 1)], 0)) 5 3 0 = none :=
  generator_exhaustion_never_terminates (fun _ => 0) (fun _ _ => ([(true, 1)], 0)) 42
    (fun _ _ => ⟨true, rfl⟩) 5 3 0

/-- C10: `add_clause` enforces no clause-width constraint: every clause of
well-typed literal pairs with in-range, pairwise-distinct variables is
accepted and appended, regardless of its length — in particular the empty
clause is accepted — so the exactly-`k` width of generated formulas comes
from the sampler alone. -/
theorem add_clause_no_width_constraint (F : CNF) (c : Clause)
    (hrange : ∀ l ∈ c, 1 ≤ l.2 ∧ l.2 ≤ F.n)
    (hnodup : (c.map Prod.snd).Nodup) :
    F.add_clause c = .ok { F with clauses := F.clauses ++ [c.map signedLit] } := by
  unfold CNF.add_clause
  rw [if_neg, if_neg]
  · intro hne
    apply hne
    rw [List.Nodup.dedup hnodup, List.length_map]
  · simp only [List.any_eq_true, Bool.or_eq_true, decide_eq_true_eq]
    push_neg
    intro l hl
    have hb := hrange l hl
    omega

/-- Witness for C10: the empty clause is accepted. -/
theorem add_clause_no_width_constraint_witness :
    (CNF.new 5).add_clause [] =
      .ok { n := 5, clauses := [[]], header := "Default header" } :=
  add_clause_no_width_constraint (CNF.new 5) []
    (fun l hl => absurd hl (List.not_mem_nil l)) List.nodup_nil
